import Mathlib

/-!
Shallow embedding of the real-time audio pipeline of the gemini-live-test
repository: the transport codec (base64 + 16-bit PCM), the cost model,
the capture Framer (AudioWorklet processor), and the playback scheduler,
together with proofs of the specified properties.

Numbers: JavaScript numeric values are modelled as exact rationals (ℚ).
Almost every operation the embedded code performs on them — scaling by
32768, truncation, division by a power of two, max, addition — is exact
in IEEE double precision on the value ranges involved, so ℚ is a
faithful carrier for those operations. The one exception is the token
estimator's 1/32000 pipeline, whose double rounding is observable; it
is modelled with an explicit 53-bit round-to-nearest-even
(`roundNearest`). Byte values are ℕ (< 256), 16-bit samples are ℤ with
explicit mod-2^16 wraparound.
-/

namespace GeminiLive

/-! ### Transport encoding (the source's `encode`/`decode`, i.e. btoa/atob)

The source builds a latin-1 binary string from the bytes with
String.fromCharCode and feeds it to the platform's btoa; decode applies
atob and reads the char codes back. Since fromCharCode/charCodeAt is the
identity on byte values, both are modelled directly on byte lists: btoa
is RFC 4648 base64, atob is the WHATWG forgiving-base64 decoder. -/

/-- The 64-character base64 alphabet used by btoa/atob. -/
def base64Alphabet : List Char :=
  "ABCDEFGHIJKLMNOPQRSTUVWXYZabcdefghijklmnopqrstuvwxyz0123456789+/".toList

/-- Character for a sextet value (< 64). -/
def sextetToChar (s : ℕ) : Char := base64Alphabet.getD s 'A'

/-- Alphabet position of a character; none for a character outside the
alphabet (atob throws on such input). -/
def charToSextet (c : Char) : Option ℕ := base64Alphabet.findIdx? (· = c)

/-- Base64 sextet stream of a byte list, in 3-byte groups; the last group
may give 2 or 3 sextets (padding handled at the character layer). -/
def btoaSextets : List ℕ → List ℕ
  | [] => []
  | [b0] => [b0 / 4, b0 % 4 * 16]
  | [b0, b1] => [b0 / 4, b0 % 4 * 16 + b1 / 16, b1 % 16 * 4]
  | b0 :: b1 :: b2 :: rest =>
      b0 / 4 :: (b0 % 4 * 16 + b1 / 16) :: (b1 % 16 * 4 + b2 / 64) ::
        b2 % 64 :: btoaSextets rest

/-- Padding characters appended by btoa: bytes ≡ 1 (mod 3) get "==",
bytes ≡ 2 (mod 3) get "=". -/
def btoaPadding (n : ℕ) : List Char :=
  if n % 3 = 1 then ['=', '='] else if n % 3 = 2 then ['='] else []

/-- The source's `encode`: binary string of the bytes, then btoa. -/
def encode (bytes : List ℕ) : String :=
  String.mk ((btoaSextets bytes).map sextetToChar ++ btoaPadding bytes.length)

/-- WHATWG forgiving-base64 step 2: up to two trailing "=" are removed
(the caller applies this only when the length is a multiple of 4). -/
def stripPadding (cs : List Char) : List Char :=
  match cs.reverse with
  | '=' :: '=' :: rest => rest.reverse
  | '=' :: rest => rest.reverse
  | _ => cs

/-- Reassembles bytes from a sextet stream; a single leftover sextet is
an error (cannot encode a whole byte). -/
def atobSextets : List ℕ → Option (List ℕ)
  | [] => some []
  | [_] => none
  | [s0, s1] => some [s0 * 4 + s1 / 16]
  | [s0, s1, s2] => some [s0 * 4 + s1 / 16, s1 % 16 * 16 + s2 / 4]
  | s0 :: s1 :: s2 :: s3 :: rest =>
      (atobSextets rest).map fun bs =>
        (s0 * 4 + s1 / 16) :: (s1 % 16 * 16 + s2 / 4) :: (s2 % 4 * 64 + s3) :: bs

/-- The source's `decode`: atob, reading each output char code as a byte.
Returns none exactly where atob throws (invalid character, or length
≡ 1 mod 4 after padding removal). -/
def decode (s : String) : Option (List ℕ) :=
  let cs := if s.toList.length % 4 = 0 then stripPadding s.toList else s.toList
  if cs.length % 4 = 1 then none
  else (cs.mapM charToSextet).bind atobSextets

/-! ### PCM sample conversion (`createBlob`, `decodeAudioData`) -/

/-- JavaScript ToIntegerOrInfinity on a finite value: truncation toward
zero. -/
def jsTrunc (q : ℚ) : ℤ := if 0 ≤ q then ⌊q⌋ else ⌈q⌉

/-- JavaScript ToInt16: wrap modulo 2^16 into [-32768, 32768). This is
what storing into an Int16Array performs (no clamping). -/
def toInt16 (n : ℤ) : ℤ :=
  let u := n % 65536
  if u ≥ 32768 then u - 65536 else u

/-- Unsigned 16-bit representation of a (wrapped) 16-bit sample. -/
def toUint16 (n : ℤ) : ℤ := n % 65536

/-- Little-endian byte pair of a 16-bit sample, as laid out by viewing
the Int16Array's buffer through a Uint8Array. -/
def int16ToBytesLE (n : ℤ) : List ℕ :=
  [(toUint16 n).toNat % 256, (toUint16 n).toNat / 256]

/-- The sample loop of `createBlob`: each float sample is scaled by 32768
and narrowed to a 16-bit signed integer (wraparound, no clamping), and
the Int16Array's storage is viewed as bytes. -/
def floatToPcm16 (data : List ℚ) : List ℕ :=
  (data.map fun x => toInt16 (jsTrunc (x * 32768))).flatMap int16ToBytesLE

/-- The source's `createBlob` record: base64 PCM bytes plus mime type. -/
structure AudioBlob where
  data : String
  mimeType : String
deriving DecidableEq, Repr

/-- The source's `createBlob`. -/
def createBlob (data : List ℚ) : AudioBlob :=
  { data := encode (floatToPcm16 data), mimeType := "audio/pcm;rate=16000" }

/-- Reads consecutive little-endian byte pairs as signed 16-bit samples
(the `new Int16Array(data.buffer)` view). -/
def bytesToInt16s : List ℕ → List ℤ
  | b0 :: b1 :: rest =>
      (if b0 % 256 + 256 * (b1 % 256) ≥ 32768
        then (b0 % 256 + 256 * (b1 % 256) : ℤ) - 65536
        else (b0 % 256 + 256 * (b1 % 256) : ℤ)) :: bytesToInt16s rest
  | _ => []

/-- A decoded audio buffer: per-channel sample lists plus the sample
rate; duration is frames / sampleRate. -/
structure AudioBuffer where
  channels : List (List ℚ)
  sampleRate : ℕ
deriving DecidableEq, Repr

/-- Duration in seconds of a decoded buffer (frames / sampleRate). -/
def AudioBuffer.duration (b : AudioBuffer) : ℚ :=
  ((b.channels.headD []).length : ℚ) / b.sampleRate

/-- The source's `decodeAudioData`: creates a buffer of
data.length/2/numChannels frames (the AudioContext throws — none — when
that is zero or not an integer, and the Int16Array view throws on an odd
byte count), converts each 16-bit sample to float by dividing by
32768.0, and de-interleaves channels by index modulo numChannels. -/
def decodeAudioData (data : List ℕ) (sampleRate : ℕ) (numChannels : ℕ) :
    Option AudioBuffer :=
  if data.length % 2 = 0 ∧ (data.length / 2) % numChannels = 0 ∧
      0 < data.length / 2 / numChannels then
    let dataFloat32 := (bytesToInt16s data).map fun (v : ℤ) => (v : ℚ) / 32768
    if numChannels = 1 then
      some { channels := [dataFloat32], sampleRate := sampleRate }
    else
      some
        { channels :=
            (List.range numChannels).map fun i =>
              (dataFloat32.enum.filter fun p => p.1 % numChannels = i).map
                Prod.snd,
          sampleRate := sampleRate }
  else none

/-! ### Token estimation

`estimateAudioTokens` runs in IEEE-754 double precision, and unlike the
rest of the pipeline its arithmetic is NOT exact there: the double
nearest to 1/32000 lies strictly above the true value, so the computed
product can exceed the exact one and push Math.ceil up by one (first at
audioDataSize = 8960). The double computation is therefore modelled
exactly: a double is the rational it denotes, and each JS operation is
the exact rational result rounded to 53 significant bits with
round-to-nearest, ties-to-even (`roundNearest`). No input of this
pipeline approaches the subnormal or overflow ranges, so the unbounded
exponent used here agrees with IEEE binary64. -/

/-- Floor of the base-2 logarithm of a positive rational, from the Nat
logarithms of its numerator and denominator. -/
def qLog2 (q : ℚ) : ℤ :=
  let l : ℤ := (Nat.log 2 q.num.toNat : ℤ) - (Nat.log 2 q.den : ℤ)
  if (2 : ℚ) ^ l ≤ q then l else l - 1

/-- IEEE-754 round-to-nearest, ties-to-even, at 53 significant bits
(binary64), for the nonnegative values this pipeline produces: the
significand q / 2^(e-52) ∈ [2^52, 2^53) is rounded to the nearest
integer, ties to the even neighbour. -/
def roundNearest (q : ℚ) : ℚ :=
  if q ≤ 0 then 0
  else
    let s : ℤ := qLog2 q - 52
    let m0 : ℚ := q / 2 ^ s
    let fl : ℤ := ⌊m0⌋
    let m : ℤ :=
      if m0 - fl < 1 / 2 then fl
      else if 1 / 2 < m0 - fl then fl + 1
      else if fl % 2 = 0 then fl else fl + 1
    (m : ℚ) * 2 ^ s

/-- The source's `estimateAudioTokens`: about 75 tokens per second of
16 kHz / 16-bit mono audio, rounded up, computed in double precision —
1/(16000*2) is rounded to a double, each product is rounded, and
Math.ceil of the final double is exact. -/
def estimateAudioTokens (audioDataSize : ℕ) : ℤ :=
  let approximateSecondsPerByte : ℚ := roundNearest (1 / (16000 * 2))
  let seconds : ℚ :=
    roundNearest (audioDataSize * approximateSecondsPerByte)
  ⌈roundNearest (seconds * 75)⌉

/-! ### Cost model (`calculateCostInDollar`, `extractTokensByModality`) -/

/-- The Gemini model types of the source's GeminiModel enum. -/
inductive GeminiModel
  | gemini25FlashPreviewNativeAudioDialog
  | geminiLive25FlashPreview
  | gemini20FlashLive001
deriving DecidableEq, Repr

/-- String value of each GeminiModel enum member. -/
def GeminiModel.id : GeminiModel → String
  | .gemini25FlashPreviewNativeAudioDialog =>
      "gemini-2.5-flash-preview-native-audio-dialog"
  | .geminiLive25FlashPreview => "gemini-live-2.5-flash-preview"
  | .gemini20FlashLive001 => "gemini-2.0-flash-live-001"

/-- Per-token prices for one direction (USD per token). -/
structure ModalityPrice where
  text : ℚ
  audio : ℚ
deriving DecidableEq, Repr

/-- Input and output prices of one model. -/
structure ModelPrice where
  input : ModalityPrice
  output : ModalityPrice
deriving DecidableEq, Repr

/-- Live API pricing information of the source (USD per 1M tokens,
stored per token). -/
def geminiPriceTable : GeminiModel → ModelPrice
  | .gemini25FlashPreviewNativeAudioDialog =>
      { input := { text := 0.5 / 1000000, audio := 3.0 / 1000000 },
        output := { text := 2.0 / 1000000, audio := 12.0 / 1000000 } }
  | .geminiLive25FlashPreview =>
      { input := { text := 0.5 / 1000000, audio := 3.0 / 1000000 },
        output := { text := 2.0 / 1000000, audio := 12.0 / 1000000 } }
  | .gemini20FlashLive001 =>
      { input := { text := 0.35 / 1000000, audio := 2.1 / 1000000 },
        output := { text := 1.5 / 1000000, audio := 8.5 / 1000000 } }

/-- One entry of a token-detail collection. The TypeScript type limits
modality to "TEXT" | "AUDIO", but the runtime value is whatever string
the API delivered, so it is modelled as a string. -/
structure TokenDetail where
  modality : String
  token_count : ℤ
deriving DecidableEq, Repr

/-- Token usage attached to one response message; either side may be
absent. -/
structure TokenUsage where
  prompt_tokens_details : Option (List TokenDetail) := none
  response_tokens_details : Option (List TokenDetail) := none
deriving DecidableEq, Repr

/-- The cost breakdown returned by `calculateCostInDollar`. -/
structure CostBreakdown where
  input_cost : ℚ
  output_cost : ℚ
  total_cost : ℚ
  input_text_tokens : ℤ
  input_audio_tokens : ℤ
  output_text_tokens : ℤ
  output_audio_tokens : ℤ
deriving DecidableEq, Repr

/-- The source's `extractTokensByModality`: sums token counts of TEXT
and of AUDIO details; any other modality falls through both branches and
is ignored. -/
def extractTokensByModality (tokensDetails : Option (List TokenDetail)) :
    ℤ × ℤ :=
  match tokensDetails with
  | none => (0, 0)
  | some details =>
      details.foldl
        (fun (acc : ℤ × ℤ) detail =>
          if detail.modality = "TEXT" then (acc.1 + detail.token_count, acc.2)
          else if detail.modality = "AUDIO" then
            (acc.1, acc.2 + detail.token_count)
          else acc)
        (0, 0)

/-- Spec-side formulation of per-modality token summation, written from
the spec's words: the token counts of exactly the details of the given
modality, summed; details of any other modality are ignored. Used to
compare `extractTokensByModality` against the spec. -/
def specTokenSum (modality : String) (details : List TokenDetail) : ℤ :=
  ((details.filter fun d => d.modality = modality).map
    TokenDetail.token_count).sum

/-- The model-name-to-enum conversion at the head of
`calculateCostInDollar`: any unrecognized string falls through to
GEMINI_2_0_FLASH_LIVE_001. -/
def resolveModel (model : String) : GeminiModel :=
  if model = GeminiModel.id .gemini25FlashPreviewNativeAudioDialog then
    .gemini25FlashPreviewNativeAudioDialog
  else if model = GeminiModel.id .geminiLive25FlashPreview then
    .geminiLive25FlashPreview
  else .gemini20FlashLive001

/-- The source's `calculateCostInDollar`: resolves the model name, sums
tokens per modality on each side, and applies the price table. -/
def calculateCostInDollar (model : String) (tokenUsage : TokenUsage) :
    CostBreakdown :=
  let geminiModel : GeminiModel := resolveModel model
  let inputTokens := extractTokensByModality tokenUsage.prompt_tokens_details
  let outputTokens :=
    extractTokensByModality tokenUsage.response_tokens_details
  let price := geminiPriceTable geminiModel
  let inputCost :=
    inputTokens.1 * price.input.text + inputTokens.2 * price.input.audio
  let outputCost :=
    outputTokens.1 * price.output.text + outputTokens.2 * price.output.audio
  { input_cost := inputCost
    output_cost := outputCost
    total_cost := inputCost + outputCost
    input_text_tokens := inputTokens.1
    input_audio_tokens := inputTokens.2
    output_text_tokens := outputTokens.1
    output_audio_tokens := outputTokens.2 }

/-! ### Framer (`AudioProcessor.process` of the capture worklet) -/

/-- Capacity of the worklet's accumulation buffer. -/
def FRAME_SIZE : ℕ := 4096

/-- State of the AudioProcessor: the prefix of the Float32Array that has
been written since the last emission (its length is bufferIndex; the
stale suffix of the backing array is never emitted because frames are
sent only when bufferIndex reaches the full capacity). -/
structure AudioProcessorState where
  buffer : List ℚ
deriving DecidableEq, Repr

/-- Initial worklet state: empty buffer, bufferIndex 0. -/
def AudioProcessorState.init : AudioProcessorState := ⟨[]⟩

/-- One `process` call. Input none models an absent input channel
(early return). Copies as many incoming samples as fit into remaining
space — a longer block is truncated to the prefix that fits — and, when
the buffer is full, posts a copy of it and resets the cursor. Returns
the new state and the emitted frame, if any. -/
def process (st : AudioProcessorState) (inputChannel : Option (List ℚ)) :
    AudioProcessorState × Option (List ℚ) :=
  match inputChannel with
  | none => (st, none)
  | some input =>
      let remainingSpace := FRAME_SIZE - st.buffer.length
      let newBuffer :=
        if input.length > remainingSpace then
          st.buffer ++ input.take remainingSpace
        else st.buffer ++ input
      if newBuffer.length ≥ FRAME_SIZE then (⟨[]⟩, some newBuffer)
      else (⟨newBuffer⟩, none)

/-- Runs `process` over a sequence of capture blocks, collecting the
emitted frames in emission order. -/
def runProcess (st : AudioProcessorState) :
    List (List ℚ) → AudioProcessorState × List (List ℚ)
  | [] => (st, [])
  | blk :: rest =>
      let step := process st (some blk)
      let next := runProcess step.1 rest
      (next.1, step.2.toList ++ next.2)

/-- True when every block fits into the remaining buffer space at the
moment it is processed (the hypothesis of the framing property). -/
def noOverflow (st : AudioProcessorState) : List (List ℚ) → Bool
  | [] => true
  | blk :: rest =>
      decide (blk.length ≤ FRAME_SIZE - st.buffer.length) &&
        noOverflow (process st (some blk)).1 rest

/-! ### Playback scheduler (the onmessage parts loop and interrupted
handling of `GdmLiveAudio.initSession`) -/

/-- Lifecycle of one playback source node. A segment is scheduled when
`source.start` is called, ends naturally via the "ended" listener, and
is stopped by `source.stop()` during interruption. -/
inductive SegStatus
  | scheduled
  | ended
  | stopped
deriving DecidableEq, Repr

/-- One response audio segment handed to the output graph. -/
structure Segment where
  startTime : ℚ
  duration : ℚ
  status : SegStatus
deriving DecidableEq, Repr

/-- Scheduler state: the nextStartTime field plus the history of
segments; the active set (the `sources` Set) is the segments whose
status is still `scheduled`. -/
structure SchedulerState where
  nextStartTime : ℚ
  segments : List Segment
deriving DecidableEq, Repr

/-- Fresh scheduler state (nextStartTime initialized to 0). -/
def SchedulerState.init : SchedulerState := ⟨0, []⟩

/-- The active-segment set (the members of `this.sources`). -/
def SchedulerState.active (st : SchedulerState) : List Segment :=
  st.segments.filter fun s => s.status = .scheduled

/-- Line `this.nextStartTime = Math.max(this.nextStartTime,
this.outputAudioContext.currentTime)`, executed before the decode. -/
def clampToClock (st : SchedulerState) (currentTime : ℚ) : SchedulerState :=
  { st with nextStartTime := max st.nextStartTime currentTime }

/-- Lines `source.start(this.nextStartTime); this.nextStartTime += ...;
this.sources.add(source)`, executed after the decode succeeds. -/
def startSource (st : SchedulerState) (duration : ℚ) : SchedulerState :=
  { nextStartTime := st.nextStartTime + duration,
    segments :=
      st.segments ++ [{ startTime := st.nextStartTime, duration := duration,
                        status := .scheduled }] }

/-- One whole enqueue of a decoded segment at a given clock time. -/
def enqueue (st : SchedulerState) (currentTime : ℚ) (duration : ℚ) :
    SchedulerState :=
  startSource (clampToClock st currentTime) duration

/-- The "ended" event listener of segment i: the source is removed from
the active set when its playback finishes naturally. -/
def onEnded (st : SchedulerState) (i : ℕ) : SchedulerState :=
  { st with
    segments :=
      st.segments.mapIdx fun j s =>
        if j = i ∧ s.status = .scheduled then { s with status := .ended }
        else s }

/-- The interrupted handler: stops every source in the set, removes it,
and resets nextStartTime to 0. -/
def interrupt (st : SchedulerState) : SchedulerState :=
  { nextStartTime := 0,
    segments :=
      st.segments.map fun s =>
        if s.status = .scheduled then { s with status := .stopped } else s }

/-- Runs a sequence of enqueue calls, each given as (clock time at the
call, segment duration). -/
def runEnqueues (st : SchedulerState) : List (ℚ × ℚ) → SchedulerState
  | [] => st
  | (clock, dur) :: rest => runEnqueues (enqueue st clock dur) rest

/-- The (startTime, duration) pairs the scheduler assigns to a sequence
of enqueue calls, starting from a given nextStartTime. -/
def schedule (next : ℚ) : List (ℚ × ℚ) → List (ℚ × ℚ)
  | [] => []
  | (clock, dur) :: rest =>
      (max next clock, dur) :: schedule (max next clock + dur) rest

/-- Final nextStartTime after a sequence of enqueue calls. -/
def scheduleNext (next : ℚ) : List (ℚ × ℚ) → ℚ
  | [] => next
  | (clock, dur) :: rest => scheduleNext (max next clock + dur) rest

/-- One part of an inbound message: the base64 payload of its inline
data if present, paired with the output clock reading at the moment the
part is handled. -/
structure MessagePart where
  inlineData : Option String
  currentTime : ℚ
deriving DecidableEq, Repr

/-- The onmessage parts loop. For each part carrying inline data the
code clamps nextStartTime to the clock, awaits the decode, and on
success starts the source; a decode/atob exception propagates out of
the async handler, so it aborts the loop for the remaining parts. -/
def processParts (st : SchedulerState) : List MessagePart → SchedulerState
  | [] => st
  | part :: rest =>
      match part.inlineData with
      | none => processParts st rest
      | some payload =>
          let st1 := clampToClock st part.currentTime
          match (decode payload).bind fun bytes =>
              decodeAudioData bytes 24000 1 with
          | none => st1
          | some buf => processParts (startSource st1 buf.duration) rest

/-! ## Theorems -/

/-- The fold of `extractTokensByModality` adds the spec-side per-modality
sums to its accumulator. -/
lemma extractTokensByModality_foldl (ds : List TokenDetail) (a b : ℤ) :
    ds.foldl
        (fun (acc : ℤ × ℤ) detail =>
          if detail.modality = "TEXT" then (acc.1 + detail.token_count, acc.2)
          else if detail.modality = "AUDIO" then
            (acc.1, acc.2 + detail.token_count)
          else acc)
        (a, b) =
      (a + specTokenSum "TEXT" ds, b + specTokenSum "AUDIO" ds) := by
  induction ds generalizing a b with
  | nil => simp [specTokenSum]
  | cons d ds ih =>
      by_cases h1 : d.modality = "TEXT"
      · simp [specTokenSum, h1, ih, add_assoc]
      · by_cases h2 : d.modality = "AUDIO"
        · simp [specTokenSum, h1, h2, ih, add_assoc]
        · simp [specTokenSum, h1, h2, ih]

/-- `extractTokensByModality` returns exactly the spec-side TEXT and
AUDIO sums (absent collections count as empty). -/
lemma extractTokensByModality_eq (o : Option (List TokenDetail)) :
    extractTokensByModality o =
      (specTokenSum "TEXT" (o.getD []), specTokenSum "AUDIO" (o.getD [])) := by
  cases o with
  | none => simp [extractTokensByModality, specTokenSum]
  | some ds => simpa [extractTokensByModality] using
      extractTokensByModality_foldl ds 0 0

/-- C7: for every model identifier and usage record with non-negative
token counts, the breakdown's token fields are the per-modality sums
(details of any modality other than TEXT and AUDIO are ignored),
input_cost and output_cost follow the price-table formula, and
total_cost is their sum. -/
theorem calculateCostInDollar_formula (model : String) (u : TokenUsage)
    (hp : ∀ d ∈ u.prompt_tokens_details.getD [], 0 ≤ d.token_count)
    (hr : ∀ d ∈ u.response_tokens_details.getD [], 0 ≤ d.token_count) :
    (calculateCostInDollar model u).input_text_tokens =
        specTokenSum "TEXT" (u.prompt_tokens_details.getD []) ∧
    (calculateCostInDollar model u).input_audio_tokens =
        specTokenSum "AUDIO" (u.prompt_tokens_details.getD []) ∧
    (calculateCostInDollar model u).output_text_tokens =
        specTokenSum "TEXT" (u.response_tokens_details.getD []) ∧
    (calculateCostInDollar model u).output_audio_tokens =
        specTokenSum "AUDIO" (u.response_tokens_details.getD []) ∧
    (calculateCostInDollar model u).input_cost =
        (calculateCostInDollar model u).input_text_tokens *
            (geminiPriceTable (resolveModel model)).input.text +
          (calculateCostInDollar model u).input_audio_tokens *
            (geminiPriceTable (resolveModel model)).input.audio ∧
    (calculateCostInDollar model u).output_cost =
        (calculateCostInDollar model u).output_text_tokens *
            (geminiPriceTable (resolveModel model)).output.text +
          (calculateCostInDollar model u).output_audio_tokens *
            (geminiPriceTable (resolveModel model)).output.audio ∧
    (calculateCostInDollar model u).total_cost =
        (calculateCostInDollar model u).input_cost +
          (calculateCostInDollar model u).output_cost := by
  simp [calculateCostInDollar, extractTokensByModality_eq]

/-- Witness for C7 at a concrete usage record containing an ignored
"IMAGE" modality detail. -/
theorem calculateCostInDollar_formula_witness :
    (calculateCostInDollar "gemini-live-2.5-flash-preview"
          { prompt_tokens_details :=
              some [{ modality := "TEXT", token_count := 10 },
                    { modality := "AUDIO", token_count := 20 },
                    { modality := "IMAGE", token_count := 5 }],
            response_tokens_details :=
              some [{ modality := "AUDIO", token_count := 7 }] }).total_cost =
      (calculateCostInDollar "gemini-live-2.5-flash-preview"
          { prompt_tokens_details :=
              some [{ modality := "TEXT", token_count := 10 },
                    { modality := "AUDIO", token_count := 20 },
                    { modality := "IMAGE", token_count := 5 }],
            response_tokens_details :=
              some [{ modality := "AUDIO", token_count := 7 }] }).input_cost +
        (calculateCostInDollar "gemini-live-2.5-flash-preview"
            { prompt_tokens_details :=
                some [{ modality := "TEXT", token_count := 10 },
                      { modality := "AUDIO", token_count := 20 },
                      { modality := "IMAGE", token_count := 5 }],
              response_tokens_details :=
                some [{ modality := "AUDIO", token_count := 7 }] }).output_cost :=
  (calculateCostInDollar_formula _ _ (by decide) (by decide)).2.2.2.2.2.2

/-- C9: `calculateCostInDollar` is a total function; an identifier that
is not in the price table resolves to the default model
GEMINI_2_0_FLASH_LIVE_001, gives the same breakdown as that model's
identifier, and the breakdown is complete (total = input + output). -/
theorem calculateCostInDollar_unknown_model (model : String) (u : TokenUsage)
    (h1 : model ≠ "gemini-2.5-flash-preview-native-audio-dialog")
    (h2 : model ≠ "gemini-live-2.5-flash-preview") :
    resolveModel model = .gemini20FlashLive001 ∧
    calculateCostInDollar model u =
      calculateCostInDollar "gemini-2.0-flash-live-001" u ∧
    (calculateCostInDollar model u).total_cost =
      (calculateCostInDollar model u).input_cost +
        (calculateCostInDollar model u).output_cost := by
  have hres : resolveModel model = .gemini20FlashLive001 := by
    simp [resolveModel, GeminiModel.id, h1, h2]
  have hdef : resolveModel "gemini-2.0-flash-live-001" =
      .gemini20FlashLive001 := by decide
  exact ⟨hres, by simp [calculateCostInDollar, hres, hdef], rfl⟩

/-- Witness for C9 at a concrete unrecognized model identifier. -/
theorem calculateCostInDollar_unknown_model_witness :
    resolveModel "gemini-3.0-experimental" = .gemini20FlashLive001 ∧
    calculateCostInDollar "gemini-3.0-experimental" {} =
      calculateCostInDollar "gemini-2.0-flash-live-001" {} ∧
    (calculateCostInDollar "gemini-3.0-experimental" {}).total_cost =
      (calculateCostInDollar "gemini-3.0-experimental" {}).input_cost +
        (calculateCostInDollar "gemini-3.0-experimental" {}).output_cost :=
  calculateCostInDollar_unknown_model _ _ (by decide) (by decide)

/-- C6: for every append call whose incoming block is longer than the
remaining buffer space, exactly the prefix that fits is copied (and,
the buffer being full, emitted) and the remainder is dropped — the
post-state buffer is empty, so nothing is carried to the next call;
an absent or empty input is a no-op. `process` is total, so append
never errors. -/
theorem process_overflow_truncates (st : AudioProcessorState) (input : List ℚ)
    (hlen : st.buffer.length ≤ FRAME_SIZE)
    (hover : input.length > FRAME_SIZE - st.buffer.length) :
    process st (some input) =
      (AudioProcessorState.init,
        some (st.buffer ++ input.take (FRAME_SIZE - st.buffer.length))) ∧
    process st none = (st, none) ∧
    (st.buffer.length < FRAME_SIZE → process st (some []) = (st, none)) := by
  refine ⟨?_, rfl, ?_⟩
  · simp only [process, hover, if_true]
    have hrem :
        (st.buffer ++ input.take (FRAME_SIZE - st.buffer.length)).length =
          FRAME_SIZE := by
      simp only [List.length_append, List.length_take]
      omega
    simp [hrem, AudioProcessorState.init]
  · intro h
    have c1 : ¬ (List.length ([] : List ℚ) > FRAME_SIZE - st.buffer.length) := by
      simp
    have c2 : ¬ (st.buffer.length ≥ FRAME_SIZE) := by omega
    simp only [process, List.append_nil, if_neg c1, if_neg c2]

/-- Witness for C6: a one-sample buffer receiving a 4096-sample block. -/
theorem process_overflow_truncates_witness :
    process ⟨[(0 : ℚ)]⟩ (some (List.replicate FRAME_SIZE (0 : ℚ))) =
      (AudioProcessorState.init,
        some ([(0 : ℚ)] ++
          (List.replicate FRAME_SIZE (0 : ℚ)).take (FRAME_SIZE - 1))) ∧
    process ⟨[(0 : ℚ)]⟩ none = (⟨[(0 : ℚ)]⟩, none) ∧
    ((1 : ℕ) < FRAME_SIZE →
      process ⟨[(0 : ℚ)]⟩ (some []) = (⟨[(0 : ℚ)]⟩, none)) :=
  process_overflow_truncates ⟨[(0 : ℚ)]⟩ (List.replicate FRAME_SIZE (0 : ℚ))
    (by norm_num [FRAME_SIZE]) (by norm_num [FRAME_SIZE])

/-- The run of the Framer over a block sequence in which every block
fits the remaining space: the leftover buffer length is the total
modulo FRAME_SIZE, the number of emitted frames is the total divided by
FRAME_SIZE, every frame has exactly FRAME_SIZE samples, and frames plus
leftover reproduce the input verbatim. -/
lemma runProcess_spec (blocks : List (List ℚ)) (st : AudioProcessorState)
    (hlt : st.buffer.length < FRAME_SIZE)
    (hno : noOverflow st blocks = true) :
    (runProcess st blocks).1.buffer.length =
        (st.buffer.length + (blocks.map List.length).sum) % FRAME_SIZE ∧
    (runProcess st blocks).2.length =
        (st.buffer.length + (blocks.map List.length).sum) / FRAME_SIZE ∧
    (∀ f ∈ (runProcess st blocks).2, f.length = FRAME_SIZE) ∧
    (runProcess st blocks).2.flatten ++ (runProcess st blocks).1.buffer =
        st.buffer ++ blocks.flatten := by
  induction blocks generalizing st with
  | nil =>
      simp [runProcess, Nat.mod_eq_of_lt hlt, Nat.div_eq_of_lt hlt]
  | cons blk rest ih =>
      simp only [noOverflow, Bool.and_eq_true, decide_eq_true_eq] at hno
      obtain ⟨hblk, hno'⟩ := hno
      have hfit : ¬ (blk.length > FRAME_SIZE - st.buffer.length) := by omega
      by_cases hfull : st.buffer.length + blk.length = FRAME_SIZE
      · have hproc :
            process st (some blk) = (⟨[]⟩, some (st.buffer ++ blk)) := by
          simp [process, hfit]
          omega
        rw [hproc] at hno'
        have ih' := ih ⟨[]⟩ (by simp [FRAME_SIZE]) hno'
        obtain ⟨ih1, ih2, ih3, ih4⟩ := ih'
        simp only [List.length_nil] at ih1 ih2
        simp only [List.nil_append] at ih4
        simp only [runProcess, hproc, Option.toList_some]
        refine ⟨?_, ?_, ?_, ?_⟩
        · rw [ih1]
          simp only [List.map_cons, List.sum_cons, FRAME_SIZE] at hfull ⊢
          omega
        · simp only [List.singleton_append, List.length_cons, ih2,
            List.map_cons, List.sum_cons, FRAME_SIZE]
          simp only [FRAME_SIZE] at hfull
          omega
        · intro f hf
          rcases List.mem_cons.1 hf with h | h
          · subst h
            simp only [List.length_append]
            omega
          · exact ih3 f h
        · simp only [List.flatten_cons, List.singleton_append,
            List.cons_append, List.nil_append]
          rw [List.append_assoc, ih4, List.append_assoc]
      · have hlt' : st.buffer.length + blk.length < FRAME_SIZE := by omega
        have hproc : process st (some blk) = (⟨st.buffer ++ blk⟩, none) := by
          simp [process, hfit]
          omega
        rw [hproc] at hno'
        have ih' := ih ⟨st.buffer ++ blk⟩
          (by simp only [List.length_append]; omega) hno'
        obtain ⟨ih1, ih2, ih3, ih4⟩ := ih'
        simp only [List.length_append] at ih1 ih2
        simp only [runProcess, hproc, Option.toList_none, List.nil_append]
        refine ⟨?_, ?_, ?_, ?_⟩
        · rw [ih1]
          simp only [List.map_cons, List.sum_cons]
          congr 1
          omega
        · rw [ih2]
          simp only [List.map_cons, List.sum_cons]
          congr 1
          omega
        · exact ih3
        · rw [ih4, List.flatten_cons, List.append_assoc]

/-- C3: for every capture-block sequence in which no block exceeds the
remaining capacity and whose total sample count is a multiple of 4096,
the Framer emits exactly total/4096 frames, each of exactly 4096
samples, and their concatenation in emission order equals the input
samples verbatim; partial frames are never emitted (every emitted
frame has full length). -/
theorem framer_emits_exact_frames (blocks : List (List ℚ))
    (hno : noOverflow AudioProcessorState.init blocks = true)
    (hmul : (blocks.map List.length).sum % FRAME_SIZE = 0) :
    (runProcess AudioProcessorState.init blocks).2.length =
        (blocks.map List.length).sum / FRAME_SIZE ∧
    (∀ f ∈ (runProcess AudioProcessorState.init blocks).2,
        f.length = FRAME_SIZE) ∧
    (runProcess AudioProcessorState.init blocks).2.flatten =
        blocks.flatten := by
  obtain ⟨h1, h2, h3, h4⟩ := runProcess_spec blocks .init
    (by simp [AudioProcessorState.init, FRAME_SIZE]) hno
  have hinit : AudioProcessorState.init.buffer = [] := rfl
  simp only [hinit, List.length_nil, Nat.zero_add, List.nil_append]
    at h1 h2 h4
  have hbuf : (runProcess AudioProcessorState.init blocks).1.buffer = [] :=
    List.length_eq_zero.mp (by rw [h1, hmul])
  rw [hbuf, List.append_nil] at h4
  exact ⟨h2, h3, h4⟩

/-- Witness for C3: the empty capture sequence (total 0, a multiple of
4096, with no block exceeding capacity) emits 0 frames. -/
theorem framer_emits_exact_frames_witness :
    (runProcess AudioProcessorState.init []).2.length =
        (([] : List (List ℚ)).map List.length).sum / FRAME_SIZE ∧
    (∀ f ∈ (runProcess AudioProcessorState.init []).2,
        f.length = FRAME_SIZE) ∧
    (runProcess AudioProcessorState.init []).2.flatten =
        ([] : List (List ℚ)).flatten :=
  framer_emits_exact_frames [] rfl rfl

/-- `runEnqueues` produces exactly the segments of `schedule` appended
to the pre-existing ones, with the final nextStartTime of
`scheduleNext`. -/
lemma runEnqueues_eq (calls : List (ℚ × ℚ)) (st : SchedulerState) :
    runEnqueues st calls =
      { nextStartTime := scheduleNext st.nextStartTime calls,
        segments := st.segments ++
          (schedule st.nextStartTime calls).map fun p =>
            { startTime := p.1, duration := p.2, status := .scheduled } } := by
  induction calls generalizing st with
  | nil => simp [runEnqueues, scheduleNext, schedule]
  | cons c rest ih =>
      obtain ⟨clock, dur⟩ := c
      simp only [runEnqueues, schedule, scheduleNext, List.map_cons, ih,
        enqueue, clampToClock, startSource]
      simp [List.append_assoc]

/-- `schedule` assigns one start time per enqueue call. -/
lemma schedule_length (calls : List (ℚ × ℚ)) (next : ℚ) :
    (schedule next calls).length = calls.length := by
  induction calls generalizing next with
  | nil => rfl
  | cons c rest ih =>
      obtain ⟨clock, dur⟩ := c
      simp [schedule, ih]

/-- Segment i+1 starts at the maximum of segment i's end and its own
call-time clock. -/
lemma schedule_succ_start (calls : List (ℚ × ℚ)) (next : ℚ) (i : ℕ)
    (h : i + 1 < calls.length) :
    ((schedule next calls).get
        ⟨i + 1, by rw [schedule_length]; exact h⟩).1 =
      max
        (((schedule next calls).get
            ⟨i, by rw [schedule_length]; omega⟩).1 +
          ((schedule next calls).get
            ⟨i, by rw [schedule_length]; omega⟩).2)
        ((calls.get ⟨i + 1, h⟩).1) := by
  induction calls generalizing next i with
  | nil => simp at h
  | cons c rest ih =>
      obtain ⟨clock, dur⟩ := c
      cases i with
      | zero =>
          cases rest with
          | nil => simp at h
          | cons c2 rest2 =>
              obtain ⟨clock2, dur2⟩ := c2
              simp [schedule]
      | succ i =>
          have h' : i + 1 < rest.length := by simpa using h
          simpa [schedule] using ih (max next clock + dur) i h'

/-- Every scheduled start lies at or after the initial nextStartTime
when durations are non-negative. -/
lemma schedule_start_lower_bound (calls : List (ℚ × ℚ)) (next : ℚ)
    (hd : ∀ p ∈ calls, 0 ≤ p.2) :
    ∀ b ∈ schedule next calls, next ≤ b.1 := by
  induction calls generalizing next with
  | nil => simp [schedule]
  | cons c rest ih =>
      obtain ⟨clock, dur⟩ := c
      intro b hb
      simp only [schedule, List.mem_cons] at hb
      rcases hb with h | h
      · rw [h]
        exact le_max_left _ _
      · have hdur : (0 : ℚ) ≤ dur := hd (clock, dur) (by simp)
        have := ih (max next clock + dur)
          (fun p hp => hd p (List.mem_cons_of_mem _ hp)) b h
        calc next ≤ max next clock := le_max_left _ _
          _ ≤ max next clock + dur := by linarith
          _ ≤ b.1 := this

/-- No two scheduled segments overlap: each earlier segment ends no
later than any later one starts. -/
lemma schedule_no_overlap (calls : List (ℚ × ℚ)) (next : ℚ)
    (hd : ∀ p ∈ calls, 0 ≤ p.2) :
    (schedule next calls).Pairwise fun a b => a.1 + a.2 ≤ b.1 := by
  induction calls generalizing next with
  | nil => simp [schedule]
  | cons c rest ih =>
      obtain ⟨clock, dur⟩ := c
      simp only [schedule, List.pairwise_cons]
      constructor
      · intro b hb
        exact schedule_start_lower_bound rest (max next clock + dur)
          (fun p hp => hd p (List.mem_cons_of_mem _ hp)) b hb
      · exact ih (max next clock + dur)
          (fun p hp => hd p (List.mem_cons_of_mem _ hp))

/-- C1: for every sequence of enqueue calls at non-decreasing clock
times with non-negative durations, each enqueue sets nextStartTime to
startTime + duration with startTime = max(nextStartTime, clock); the
run from a fresh state realizes exactly the `schedule` timeline; the
start of segment i+1 equals max(end of segment i, its own call-time
clock); no two scheduled segments overlap; and the concrete example
(duration 0.5 s at clock 0, then duration 0.3 s at clock 0.1) schedules
starts 0 and 0.5 with final nextStartTime 0.8. -/
theorem enqueue_schedules_gapless (calls : List (ℚ × ℚ))
    (hclocks : (calls.map Prod.fst).Chain' (· ≤ ·))
    (hd : ∀ p ∈ calls, 0 ≤ p.2) :
    (∀ (st : SchedulerState) (clock dur : ℚ),
      (enqueue st clock dur).nextStartTime =
          max st.nextStartTime clock + dur ∧
      (enqueue st clock dur).segments =
        st.segments ++ [{ startTime := max st.nextStartTime clock,
                          duration := dur, status := .scheduled }]) ∧
    (runEnqueues SchedulerState.init calls).segments =
      (schedule 0 calls).map (fun p =>
        { startTime := p.1, duration := p.2, status := .scheduled }) ∧
    (runEnqueues SchedulerState.init calls).nextStartTime =
      scheduleNext 0 calls ∧
    (∀ i (h : i + 1 < calls.length),
      ((schedule 0 calls).get
          ⟨i + 1, by rw [schedule_length]; exact h⟩).1 =
        max
          (((schedule 0 calls).get
              ⟨i, by rw [schedule_length]; omega⟩).1 +
            ((schedule 0 calls).get
              ⟨i, by rw [schedule_length]; omega⟩).2)
          ((calls.get ⟨i + 1, h⟩).1)) ∧
    (schedule 0 calls).Pairwise (fun a b => a.1 + a.2 ≤ b.1) ∧
    runEnqueues SchedulerState.init
        [((0 : ℚ), (1 / 2 : ℚ)), ((1 / 10 : ℚ), (3 / 10 : ℚ))] =
      { nextStartTime := 4 / 5,
        segments :=
          [{ startTime := 0, duration := 1 / 2, status := .scheduled },
           { startTime := 1 / 2, duration := 3 / 10,
             status := .scheduled }] } := by
  refine ⟨fun st clock dur => ⟨rfl, rfl⟩, ?_, ?_, ?_, ?_, ?_⟩
  · rw [runEnqueues_eq]
    simp [SchedulerState.init]
  · rw [runEnqueues_eq]
    simp [SchedulerState.init]
  · intro i h
    exact schedule_succ_start calls 0 i h
  · exact schedule_no_overlap calls 0 hd
  · simp only [runEnqueues, enqueue, clampToClock, startSource,
      SchedulerState.init]
    norm_num

/-- Witness for C1 at the concrete two-call example of the spec. -/
theorem enqueue_schedules_gapless_witness :
    (runEnqueues SchedulerState.init
        [((0 : ℚ), (1 / 2 : ℚ)), ((1 / 10 : ℚ), (3 / 10 : ℚ))]).segments =
      (schedule 0 [((0 : ℚ), (1 / 2 : ℚ)), ((1 / 10 : ℚ), (3 / 10 : ℚ))]).map
        (fun p => { startTime := p.1, duration := p.2,
                    status := SegStatus.scheduled }) ∧
    (schedule 0
        [((0 : ℚ), (1 / 2 : ℚ)), ((1 / 10 : ℚ), (3 / 10 : ℚ))]).Pairwise
      (fun a b => a.1 + a.2 ≤ b.1) := by
  have h := enqueue_schedules_gapless
    [((0 : ℚ), (1 / 2 : ℚ)), ((1 / 10 : ℚ), (3 / 10 : ℚ))]
    (by norm_num [List.chain'_cons])
    (by intro p hp; fin_cases hp <;> norm_num)
  exact ⟨h.2.1, h.2.2.2.2.1⟩

/-- `interrupt` keeps one (re-statused) entry per segment. -/
lemma interrupt_segments_length (st : SchedulerState) :
    (interrupt st).segments.length = st.segments.length := by
  simp [interrupt]

/-- C4: after interrupt() the active set is empty, every previously
scheduled segment is force-stopped, nextStartTime is reset to 0, and
the next enqueue schedules its segment at max(0, currentClockTime) —
the timeline behaves as freshly initialized. -/
theorem interrupt_resets (st : SchedulerState) (clock dur : ℚ)
    (i : ℕ) (hi : i < st.segments.length) :
    (interrupt st).active = [] ∧
    (interrupt st).nextStartTime = 0 ∧
    ((st.segments.get ⟨i, hi⟩).status = .scheduled →
      ((interrupt st).segments.get
          ⟨i, by rw [interrupt_segments_length]; exact hi⟩).status =
        .stopped) ∧
    (enqueue (interrupt st) clock dur).segments.getLast? =
      some { startTime := max 0 clock, duration := dur,
             status := .scheduled } ∧
    (enqueue (interrupt st) clock dur).nextStartTime = max 0 clock + dur := by
  refine ⟨?_, rfl, ?_, ?_, rfl⟩
  · simp only [SchedulerState.active, interrupt]
    rw [List.filter_eq_nil]
    intro s hs
    simp only [List.mem_map] at hs
    obtain ⟨t, ht, rfl⟩ := hs
    by_cases h : t.status = .scheduled <;> simp [h]
  · intro h
    simp only [interrupt, List.get_eq_getElem, List.getElem_map]
    simp only [List.get_eq_getElem] at h
    simp [h]
  · simp only [enqueue, clampToClock, startSource, interrupt]
    exact List.getLast?_concat _

/-- Witness for C4 at a one-segment state with nextStartTime 3. -/
theorem interrupt_resets_witness :
    (interrupt
        { nextStartTime := 3,
          segments := [{ startTime := 0, duration := 1,
                         status := SegStatus.scheduled }] }).active = [] ∧
    (enqueue
        (interrupt
          { nextStartTime := 3,
            segments := [{ startTime := 0, duration := 1,
                           status := SegStatus.scheduled }] }) 2 1).nextStartTime =
      max 0 2 + 1 :=
  ⟨(interrupt_resets _ 2 1 0 (by decide)).1,
    (interrupt_resets _ 2 1 0 (by decide)).2.2.2.2⟩

/-- C5 (amended): if the decode of an inline audio payload fails, that
segment is discarded (never enqueued, no retry) and nextStartTime keeps
only the max-with-clock clamp performed before the decode; but the
thrown exception propagates out of the async onmessage handler, so the
remaining sibling payloads of the same message are NOT processed —
starting from any state, including the state reached after earlier
successfully processed siblings. -/
theorem processParts_decode_failure (st : SchedulerState) (payload : String)
    (clock : ℚ) (rest : List MessagePart)
    (hfail : (decode payload).bind
        (fun bytes => decodeAudioData bytes 24000 1) = none) :
    processParts st
        ({ inlineData := some payload, currentTime := clock } :: rest) =
      clampToClock st clock := by
  simp only [processParts]
  rw [hfail]

/-- Counterexample to C5 as stated: a malformed payload ("!") followed
by a decodable sibling ("AAA=", two PCM bytes) yields no scheduled
segment at all — the sibling was aborted — although the sibling alone
would have been enqueued. -/
theorem processParts_abort_counterexample :
    (processParts SchedulerState.init
        [{ inlineData := some "!", currentTime := 0 },
         { inlineData := some "AAA=", currentTime := 0 }]).segments = [] ∧
    (processParts SchedulerState.init
        [{ inlineData := some "AAA=", currentTime := 0 }]).segments ≠ [] := by
  have hbad : decode "!" = none := by decide
  have hgood : decode "AAA=" = some [0, 0] := by decide
  have hcond : decodeAudioData [0, 0] 24000 1 =
      some { channels := [[(0 : ℚ)]], sampleRate := 24000 } := by
    norm_num [decodeAudioData, bytesToInt16s]
  constructor
  · simp [processParts, hbad, clampToClock, SchedulerState.init]
  · simp [processParts, hgood, hcond, startSource, clampToClock,
      SchedulerState.init]

/-- Witness for C5 (amended) at the malformed payload "!" followed by a
valid sibling. -/
theorem processParts_decode_failure_witness :
    processParts SchedulerState.init
        [{ inlineData := some "!", currentTime := 0 },
         { inlineData := some "AAA=", currentTime := 0 }] =
      clampToClock SchedulerState.init 0 :=
  processParts_decode_failure SchedulerState.init "!" 0
    [{ inlineData := some "AAA=", currentTime := 0 }] (by decide)

/-- Decoding inverts encoding on each alphabet character. -/
lemma charToSextet_sextetToChar :
    ∀ s < 64, charToSextet (sextetToChar s) = some s := by decide

/-- No alphabet character is the padding character. -/
lemma sextetToChar_ne_pad : ∀ s < 64, sextetToChar s ≠ '=' := by decide

/-- Sextets of byte input are six-bit values. -/
lemma btoaSextets_lt (bs : List ℕ) (h : ∀ b ∈ bs, b < 256) :
    ∀ s ∈ btoaSextets bs, s < 64 := by
  induction bs using btoaSextets.induct with
  | case1 => simp [btoaSextets]
  | case2 b0 =>
      have hb0 := h b0 (by simp)
      simp [btoaSextets]
      omega
  | case3 b0 b1 =>
      have hb0 := h b0 (by simp)
      have hb1 := h b1 (by simp)
      simp [btoaSextets]
      omega
  | case4 b0 b1 b2 rest ih =>
      have hb0 := h b0 (by simp)
      have hb1 := h b1 (by simp)
      have hb2 := h b2 (by simp)
      intro s hs
      simp only [btoaSextets, List.mem_cons] at hs
      rcases hs with rfl | rfl | rfl | rfl | hs
      · omega
      · omega
      · omega
      · omega
      · exact ih (fun b hb => h b (by simp [hb])) s hs

/-- Padding removal is the identity on padding-free text. -/
lemma stripPadding_no_pad (M : List Char) (h : ∀ c ∈ M, c ≠ '=') :
    stripPadding M = M := by
  rcases List.eq_nil_or_concat M with rfl | ⟨N, c, rfl⟩
  · rfl
  · have hc : c ≠ '=' := h c (by simp)
    simp [stripPadding, List.reverse_append, hc]

/-- Padding removal strips a trailing "==". -/
lemma stripPadding_double (M : List Char) :
    stripPadding (M ++ ['=', '=']) = M := by
  simp [stripPadding, List.reverse_append]

/-- Padding removal strips a single trailing "=". -/
lemma stripPadding_single (M : List Char) (h : ∀ c ∈ M, c ≠ '=') :
    stripPadding (M ++ ['=']) = M := by
  rcases List.eq_nil_or_concat M with rfl | ⟨N, c, rfl⟩
  · rfl
  · have hc : c ≠ '=' := h c (by simp)
    simp [stripPadding, List.reverse_append, hc]

/-- The padding depends only on the byte count modulo 3. -/
lemma btoaPadding_add_three (n : ℕ) : btoaPadding (n + 3) = btoaPadding n := by
  simp [btoaPadding, Nat.add_mod_right]

/-- btoa output length (sextet characters plus padding) is a multiple
of 4. -/
lemma encode_length_mod (bs : List ℕ) :
    ((btoaSextets bs).length + (btoaPadding bs.length).length) % 4 = 0 := by
  induction bs using btoaSextets.induct with
  | case1 => rfl
  | case2 b0 => simp [btoaSextets, btoaPadding]
  | case3 b0 b1 => simp [btoaSextets, btoaPadding]
  | case4 b0 b1 b2 rest ih =>
      simp only [btoaSextets, List.length_cons]
      rw [show rest.length + 1 + 1 + 1 = rest.length + 3 from by omega,
        btoaPadding_add_three]
      omega

/-- The sextet count is never ≡ 1 (mod 4). -/
lemma btoaSextets_length_mod (bs : List ℕ) :
    (btoaSextets bs).length % 4 ≠ 1 := by
  induction bs using btoaSextets.induct with
  | case1 => simp [btoaSextets]
  | case2 b0 => simp [btoaSextets]
  | case3 b0 b1 => simp [btoaSextets]
  | case4 b0 b1 b2 rest ih =>
      simp only [btoaSextets, List.length_cons]
      omega

/-- Char-decoding the encoded sextet characters succeeds and recovers
the sextets. -/
lemma mapM_sextetToChar (S : List ℕ) (h : ∀ s ∈ S, s < 64) :
    (S.map sextetToChar).mapM charToSextet = some S := by
  induction S with
  | nil => rfl
  | cons s S ih =>
      have hs := h s (by simp)
      simp only [List.map_cons, List.mapM_cons,
        charToSextet_sextetToChar s hs, ih (fun t ht => h t (by simp [ht]))]
      rfl

/-- Byte reassembly inverts the sextet split. -/
lemma atobSextets_btoaSextets (bs : List ℕ) (h : ∀ b ∈ bs, b < 256) :
    atobSextets (btoaSextets bs) = some bs := by
  induction bs using btoaSextets.induct with
  | case1 => rfl
  | case2 b0 =>
      have hb0 := h b0 (by simp)
      simp only [btoaSextets, atobSextets, Option.some.injEq,
        List.cons.injEq, and_true]
      omega
  | case3 b0 b1 =>
      have hb0 := h b0 (by simp)
      have hb1 := h b1 (by simp)
      simp only [btoaSextets, atobSextets, Option.some.injEq,
        List.cons.injEq, and_true]
      constructor <;> omega
  | case4 b0 b1 b2 rest ih =>
      have hb0 := h b0 (by simp)
      have hb1 := h b1 (by simp)
      have hb2 := h b2 (by simp)
      simp only [btoaSextets, atobSextets,
        ih (fun b hb => h b (by simp [hb])), Option.map_some',
        Option.some.injEq, List.cons.injEq, and_true]
      omega

/-- C8: for every byte sequence b, decoding the text-safe transport
encoding of b returns exactly b. -/
theorem decode_encode (bs : List ℕ) (h : ∀ b ∈ bs, b < 256) :
    decode (encode bs) = some bs := by
  have hS := btoaSextets_lt bs h
  have hM : ∀ c ∈ (btoaSextets bs).map sextetToChar, c ≠ '=' := by
    intro c hc
    simp only [List.mem_map] at hc
    obtain ⟨s, hs, rfl⟩ := hc
    exact sextetToChar_ne_pad s (hS s hs)
  have hstrip : stripPadding ((btoaSextets bs).map sextetToChar ++
      btoaPadding bs.length) = (btoaSextets bs).map sextetToChar := by
    unfold btoaPadding
    split_ifs with h1 h2
    · exact stripPadding_double _
    · exact stripPadding_single _ hM
    · rw [List.append_nil]
      exact stripPadding_no_pad _ hM
  have htl : (String.mk ((btoaSextets bs).map sextetToChar ++
      btoaPadding bs.length)).toList =
      (btoaSextets bs).map sextetToChar ++ btoaPadding bs.length := rfl
  have hlen4 : ((btoaSextets bs).map sextetToChar ++
      btoaPadding bs.length).length % 4 = 0 := by
    rw [List.length_append, List.length_map]
    exact encode_length_mod bs
  have hlen1 : ¬ (((btoaSextets bs).map sextetToChar).length % 4 = 1) := by
    rw [List.length_map]
    exact btoaSextets_length_mod bs
  unfold encode decode
  simp only [htl, hlen4, if_true, reduceIte, hstrip, hlen1, if_false,
    mapM_sextetToChar _ hS, Option.some_bind, atobSextets_btoaSextets bs h]

/-- Witness for C8 at the byte sequence [0, 255, 77]. -/
theorem decode_encode_witness :
    decode (encode [0, 255, 77]) = some [0, 255, 77] :=
  decode_encode [0, 255, 77] (by decide)

/-- `toInt16` without the intermediate let binding. -/
lemma toInt16_eq (n : ℤ) :
    toInt16 n = if n % 65536 ≥ 32768 then n % 65536 - 65536 else n % 65536 :=
  rfl

/-- The wrapped 16-bit value always lies in [-32768, 32767]. -/
lemma toInt16_range (n : ℤ) : -32768 ≤ toInt16 n ∧ toInt16 n ≤ 32767 := by
  rw [toInt16_eq]
  split_ifs with h <;> omega

/-- One sample in [-1, 1) survives the scale-truncate-narrow pipeline
without wraparound, and dividing back by 32768 lands within 1/32768 of
the original. -/
lemma sample_roundtrip (x : ℚ) (h1 : -1 ≤ x) (h2 : x < 1) :
    toInt16 (jsTrunc (x * 32768)) = jsTrunc (x * 32768) ∧
    |((jsTrunc (x * 32768) : ℤ) : ℚ) / 32768 - x| ≤ 1 / 32768 := by
  have hyl : (-32768 : ℚ) ≤ x * 32768 := by linarith
  have hyu : x * 32768 < 32768 := by linarith
  unfold jsTrunc
  by_cases hy : 0 ≤ x * 32768
  · rw [if_pos hy]
    have hfl : (↑⌊x * 32768⌋ : ℚ) ≤ x * 32768 := Int.floor_le _
    have hfg : x * 32768 < ↑⌊x * 32768⌋ + 1 := Int.lt_floor_add_one _
    have ht0 : 0 ≤ ⌊x * 32768⌋ := Int.floor_nonneg.mpr hy
    have htu : ⌊x * 32768⌋ ≤ 32767 := by
      have hq : (↑⌊x * 32768⌋ : ℚ) < 32768 := lt_of_le_of_lt hfl hyu
      have : ⌊x * 32768⌋ < 32768 := by exact_mod_cast hq
      omega
    refine ⟨by rw [toInt16_eq]; split_ifs with h <;> omega, ?_⟩
    rw [abs_le]
    constructor <;> [linarith; linarith]
  · rw [if_neg hy]
    push_neg at hy
    have hcl : x * 32768 ≤ ↑⌈x * 32768⌉ := Int.le_ceil _
    have hcg : (↑⌈x * 32768⌉ : ℚ) < x * 32768 + 1 := Int.ceil_lt_add_one _
    have ht0 : ⌈x * 32768⌉ ≤ 0 :=
      Int.ceil_le.mpr (by exact_mod_cast le_of_lt hy)
    have htl : -32768 ≤ ⌈x * 32768⌉ := by
      have hq : (-32768 : ℚ) ≤ ↑⌈x * 32768⌉ := le_trans hyl hcl
      exact_mod_cast hq
    refine ⟨by rw [toInt16_eq]; split_ifs with h <;> omega, ?_⟩
    rw [abs_le]
    constructor <;> [linarith; linarith]

/-- Reading back the little-endian byte pair of an in-range 16-bit
sample recovers the sample. -/
lemma bytesToInt16s_cons16 (v : ℤ) (rest : List ℕ)
    (hv : -32768 ≤ v ∧ v ≤ 32767) :
    bytesToInt16s (int16ToBytesLE v ++ rest) = v :: bytesToInt16s rest := by
  simp only [int16ToBytesLE, toUint16, List.cons_append, bytesToInt16s]
  have h0 : 0 ≤ v % 65536 := Int.emod_nonneg v (by norm_num)
  have h1 : v % 65536 < 65536 := Int.emod_lt_of_pos v (by norm_num)
  congr 1
  split_ifs with h <;> push_cast <;> omega

/-- Unfolding of `floatToPcm16` one sample at a time. -/
lemma floatToPcm16_cons (x : ℚ) (s : List ℚ) :
    floatToPcm16 (x :: s) =
      int16ToBytesLE (toInt16 (jsTrunc (x * 32768))) ++ floatToPcm16 s := by
  simp [floatToPcm16]

/-- `floatToPcm16` produces two bytes per sample. -/
lemma floatToPcm16_length (s : List ℚ) :
    (floatToPcm16 s).length = 2 * s.length := by
  induction s with
  | nil => rfl
  | cons x s ih =>
      rw [floatToPcm16_cons, List.length_append, ih]
      simp [int16ToBytesLE]
      omega

/-- The Int16Array view of the encoded bytes is exactly the narrowed
samples. -/
lemma bytesToInt16s_floatToPcm16 (s : List ℚ) :
    bytesToInt16s (floatToPcm16 s) =
      s.map fun x => toInt16 (jsTrunc (x * 32768)) := by
  induction s with
  | nil => rfl
  | cons x s ih =>
      rw [floatToPcm16_cons, bytesToInt16s_cons16 _ _ (toInt16_range _),
        List.map_cons, ih]

/-- C2 (amended): for every nonempty sample sequence with values in
[-1, 1), converting to 16-bit PCM bytes and back (single channel)
yields a sequence of the same length equal to the original within
1/32768 absolute error per sample. (The closed right endpoint of the
claim fails: x = 1 wraps to -32768, see the counterexample; and the
empty sequence makes createBuffer throw on zero length.) -/
theorem pcm_roundtrip (s : List ℚ) (hs : s ≠ [])
    (hrange : ∀ x ∈ s, -1 ≤ x ∧ x < 1) :
    ∃ out : List ℚ,
      decodeAudioData (floatToPcm16 s) 24000 1 =
        some { channels := [out], sampleRate := 24000 } ∧
      out.length = s.length ∧
      ∀ i (hi : i < s.length) (hi' : i < out.length),
        |out.get ⟨i, hi'⟩ - s.get ⟨i, hi⟩| ≤ 1 / 32768 := by
  refine ⟨s.map (fun x => ((toInt16 (jsTrunc (x * 32768)) : ℤ) : ℚ) / 32768),
    ?_, by simp, ?_⟩
  · have hlen : (floatToPcm16 s).length = 2 * s.length :=
      floatToPcm16_length s
    have hpos : 0 < s.length := List.length_pos.mpr hs
    unfold decodeAudioData
    rw [if_pos (by rw [hlen]; refine ⟨by omega, by omega, by omega⟩),
      if_pos rfl]
    congr 1
    rw [bytesToInt16s_floatToPcm16, List.map_map]
    rfl
  · intro i hi hi'
    simp only [List.get_eq_getElem, List.getElem_map]
    have hmem : s.get ⟨i, hi⟩ ∈ s := List.get_mem s i hi
    obtain ⟨hl, hr⟩ := hrange _ hmem
    have h := sample_roundtrip (s.get ⟨i, hi⟩) hl hr
    simp only [List.get_eq_getElem] at h
    rw [h.1]
    exact h.2

/-- Counterexample to C2 as stated: the in-range sample 1 (closed
interval endpoint) scales to 32768, wraps to -32768 in the Int16Array,
and decodes to -1 — an error of 2, far above 1/32768. -/
theorem pcm_roundtrip_counterexample :
    ((-1 : ℚ) ≤ 1 ∧ (1 : ℚ) ≤ 1) ∧
    decodeAudioData (floatToPcm16 [(1 : ℚ)]) 24000 1 =
      some { channels := [[(-1 : ℚ)]], sampleRate := 24000 } ∧
    ¬ (|(-1 : ℚ) - 1| ≤ 1 / 32768) := by
  have hj : jsTrunc ((1 : ℚ) * 32768) = 32768 := by
    rw [show ((1 : ℚ) * 32768) = ((32768 : ℤ) : ℚ) by norm_num]
    rw [jsTrunc, if_pos (by positivity), Int.floor_intCast]
  have hb : floatToPcm16 [(1 : ℚ)] = [0, 128] := by
    rw [floatToPcm16_cons, hj, show toInt16 32768 = -32768 by decide,
      show int16ToBytesLE (-32768) = [0, 128] by decide]
    rfl
  refine ⟨⟨by norm_num, le_refl 1⟩, ?_, by norm_num⟩
  rw [hb]
  norm_num [decodeAudioData, bytesToInt16s]

/-- Witness for C2 (amended) at the one-sample sequence [1/2]. -/
theorem pcm_roundtrip_witness :
    ∃ out : List ℚ,
      decodeAudioData (floatToPcm16 [(1 : ℚ) / 2]) 24000 1 =
        some { channels := [out], sampleRate := 24000 } ∧
      out.length = ([(1 : ℚ) / 2]).length ∧
      ∀ i (hi : i < ([(1 : ℚ) / 2]).length) (hi' : i < out.length),
        |out.get ⟨i, hi'⟩ - ([(1 : ℚ) / 2]).get ⟨i, hi⟩| ≤ 1 / 32768 :=
  pcm_roundtrip [(1 : ℚ) / 2] (by simp)
    (by intro x hx; simp at hx; subst hx; norm_num)

/-- `qLog2` finds the binade: 2^(qLog2 q) ≤ q < 2^(qLog2 q + 1). -/
lemma qLog2_spec (q : ℚ) (hq : 0 < q) :
    (2 : ℚ) ^ qLog2 q ≤ q ∧ q < 2 ^ (qLog2 q + 1) := by
  have hnum : 0 < q.num := Rat.num_pos.mpr hq
  have ha0 : q.num.toNat ≠ 0 := by omega
  have hb0 : q.den ≠ 0 := q.den_nz
  have haL : 2 ^ Nat.log 2 q.num.toNat ≤ q.num.toNat :=
    Nat.pow_log_le_self 2 ha0
  have haU : q.num.toNat < 2 ^ (Nat.log 2 q.num.toNat + 1) :=
    Nat.lt_pow_succ_log_self (by norm_num) _
  have hbL : 2 ^ Nat.log 2 q.den ≤ q.den := Nat.pow_log_le_self 2 hb0
  have hbU : q.den < 2 ^ (Nat.log 2 q.den + 1) :=
    Nat.lt_pow_succ_log_self (by norm_num) _
  set la := Nat.log 2 q.num.toNat with hla
  set lb := Nat.log 2 q.den with hlb
  have hqa : ((q.num.toNat : ℚ)) = (q.num : ℚ) := by
    norm_cast
    omega
  have hq_eq : q = (q.num.toNat : ℚ) / (q.den : ℚ) := by
    rw [hqa, Rat.num_div_den]
  have hden_pos : (0 : ℚ) < (q.den : ℚ) := by positivity
  have hzpow : ∀ m : ℕ, (2 : ℚ) ^ (m : ℤ) = ((2 ^ m : ℕ) : ℚ) := by
    intro m
    rw [zpow_natCast]
    push_cast
    ring
  have key1 : q < (2 : ℚ) ^ ((la : ℤ) - lb + 1) := by
    rw [show ((la : ℤ) - lb + 1) = ((la + 1 : ℕ) : ℤ) - (lb : ℤ) from by
      push_cast; ring,
      zpow_sub₀ (by norm_num : (2:ℚ) ≠ 0), hzpow, hzpow, hq_eq,
      div_lt_div_iff hden_pos (by positivity)]
    have h1 : (q.num.toNat : ℚ) < ((2 ^ (la + 1) : ℕ) : ℚ) := by
      exact_mod_cast haU
    have h2 : ((2 ^ lb : ℕ) : ℚ) ≤ (q.den : ℚ) := by exact_mod_cast hbL
    have h3 : (0 : ℚ) < ((2 ^ lb : ℕ) : ℚ) := by positivity
    nlinarith
  have key2 : (2 : ℚ) ^ ((la : ℤ) - lb - 1) ≤ q := by
    rw [show ((la : ℤ) - lb - 1) = ((la : ℕ) : ℤ) - ((lb + 1 : ℕ) : ℤ) from by
      push_cast; ring,
      zpow_sub₀ (by norm_num : (2:ℚ) ≠ 0), hzpow, hzpow, hq_eq,
      div_le_div_iff (by positivity) hden_pos]
    have h1 : ((2 ^ la : ℕ) : ℚ) ≤ (q.num.toNat : ℚ) := by exact_mod_cast haL
    have h2 : (q.den : ℚ) < ((2 ^ (lb + 1) : ℕ) : ℚ) := by exact_mod_cast hbU
    have h3 : (0 : ℚ) < ((2 ^ la : ℕ) : ℚ) := by positivity
    nlinarith
  simp only [qLog2]
  rw [← hla, ← hlb]
  split_ifs with h
  · exact ⟨h, key1⟩
  · constructor
    · simpa using key2
    · simpa using not_le.mp h

/-- The binade exponent is unique. -/
lemma qLog2_unique (q : ℚ) (e : ℤ) (h1 : (2 : ℚ) ^ e ≤ q)
    (h2 : q < 2 ^ (e + 1)) : qLog2 q = e := by
  have hq : 0 < q := lt_of_lt_of_le (by positivity) h1
  obtain ⟨g1, g2⟩ := qLog2_spec q hq
  by_contra hne
  rcases lt_or_gt_of_ne hne with h | h
  · have : (2 : ℚ) ^ (qLog2 q + 1) ≤ 2 ^ e :=
      zpow_le_zpow_right₀ (by norm_num) (by omega)
    linarith
  · have : (2 : ℚ) ^ (e + 1) ≤ 2 ^ qLog2 q :=
      zpow_le_zpow_right₀ (by norm_num) (by omega)
    linarith

/-- Nonpositive values (only 0 occurs in the pipeline) round to 0. -/
lemma roundNearest_nonpos (q : ℚ) (h : q ≤ 0) : roundNearest q = 0 := by
  simp [roundNearest, h]

/-- Round-to-nearest at 53 bits has relative error at most 2^-53 (a
half ulp of the binade). -/
lemma roundNearest_err (q : ℚ) (hq : 0 ≤ q) :
    |roundNearest q - q| ≤ q / 2 ^ 53 := by
  rcases eq_or_lt_of_le hq with h | h
  · rw [← h, roundNearest_nonpos 0 le_rfl]
    norm_num
  · obtain ⟨g1, g2⟩ := qLog2_spec q h
    simp only [roundNearest, not_le.mpr h, if_false]
    set s : ℤ := qLog2 q - 52 with hs
    set m0 : ℚ := q / 2 ^ s with hm0
    have h2s : (0 : ℚ) < 2 ^ s := by positivity
    have hq_eq : q = m0 * 2 ^ s := by
      rw [hm0]
      field_simp
    have hfl1 : (⌊m0⌋ : ℚ) ≤ m0 := Int.floor_le m0
    have hfl2 : m0 < ⌊m0⌋ + 1 := Int.lt_floor_add_one m0
    have habs : ∀ m : ℤ, |(m : ℚ) - m0| ≤ 1 / 2 →
        |(m : ℚ) * 2 ^ s - q| ≤ q / 2 ^ 53 := by
      intro m hm
      have e1 : (m : ℚ) * 2 ^ s - q = ((m : ℚ) - m0) * 2 ^ s := by
        rw [hq_eq]
        ring
      rw [e1, abs_mul, abs_of_pos h2s]
      have e2 : (2 : ℚ) ^ s = 2 ^ qLog2 q / 4503599627370496 := by
        rw [hs, zpow_sub₀ (by norm_num : (2:ℚ) ≠ 0)]
        norm_num
      have e3 : |(m : ℚ) - m0| * 2 ^ s ≤ (1 / 2) * 2 ^ s := by
        have := mul_le_mul_of_nonneg_right hm (le_of_lt h2s)
        linarith
      have e4 : (1 / 2 : ℚ) * 2 ^ s ≤ q / 2 ^ 53 := by
        rw [e2, show ((2:ℚ) ^ (53 : ℕ)) = 9007199254740992 from by norm_num]
        linarith [g1]
      linarith
    split_ifs with c1 c2 c3
    · apply habs
      rw [abs_sub_comm, abs_of_nonneg (by linarith)]
      linarith
    · apply habs
      rw [abs_of_nonneg (by push_cast; linarith)]
      push_cast
      linarith
    · apply habs
      rw [abs_sub_comm, abs_of_nonneg (by linarith)]
      linarith
    · apply habs
      rw [abs_of_nonneg (by push_cast; linarith)]
      push_cast
      linarith

/-- Evaluation rule: when the significand's fraction is below 1/2 the
value rounds down to fl · 2^(e-52). -/
lemma roundNearest_eq_down (q : ℚ) (e fl : ℤ)
    (h1 : (2 : ℚ) ^ e ≤ q) (h2 : q < 2 ^ (e + 1))
    (h3 : (fl : ℚ) ≤ q / 2 ^ (e - 52)) (h4 : q / 2 ^ (e - 52) < fl + 1 / 2) :
    roundNearest q = (fl : ℚ) * 2 ^ (e - 52) := by
  have hq : 0 < q := lt_of_lt_of_le (by positivity) h1
  have he := qLog2_unique q e h1 h2
  simp only [roundNearest, not_le.mpr hq, if_false, he]
  have hfl : ⌊q / 2 ^ (e - 52)⌋ = fl :=
    Int.floor_eq_iff.mpr ⟨h3, by linarith⟩
  rw [hfl, if_pos (by linarith)]

/-- Evaluation rule: when the significand's fraction is above 1/2 the
value rounds up to (fl + 1) · 2^(e-52). -/
lemma roundNearest_eq_up (q : ℚ) (e fl : ℤ)
    (h1 : (2 : ℚ) ^ e ≤ q) (h2 : q < 2 ^ (e + 1))
    (h3 : (fl : ℚ) + 1 / 2 < q / 2 ^ (e - 52)) (h4 : q / 2 ^ (e - 52) < fl + 1) :
    roundNearest q = ((fl : ℚ) + 1) * 2 ^ (e - 52) := by
  have hq : 0 < q := lt_of_lt_of_le (by positivity) h1
  have he := qLog2_unique q e h1 h2
  simp only [roundNearest, not_le.mpr hq, if_false, he]
  have hfl : ⌊q / 2 ^ (e - 52)⌋ = fl :=
    Int.floor_eq_iff.mpr ⟨by linarith, h4⟩
  rw [hfl, if_neg (by push_cast; linarith), if_pos (by push_cast; linarith)]
  push_cast
  ring

/-- The double nearest 1/32000 lies strictly ABOVE the exact value:
1/32000 · 2^67 = 4611686018427387.904, which rounds up. This excess is
what makes the program exceed the exact ceiling at some sizes. -/
lemma secondsPerByte_eval :
    roundNearest (1 / (16000 * 2)) =
      4611686018427388 * (2 : ℚ) ^ (-67 : ℤ) := by
  have h := roundNearest_eq_up (1 / (16000 * 2)) (-15) 4611686018427387
    (by norm_num) (by norm_num) (by norm_num) (by norm_num)
  rw [h]
  norm_num

/-- The full double trace at 8960 bytes: 8960 · fl(1/32000) rounds to
5044031582654956 · 2^-54, times 75 rounds to 21 + 2^-48, and Math.ceil
of that is 22 — although the exact value is 21. -/
lemma estimateAudioTokens_8960 : estimateAudioTokens 8960 = 22 := by
  have hdef : estimateAudioTokens 8960 =
      ⌈roundNearest (roundNearest
        (((8960 : ℕ) : ℚ) * roundNearest (1 / (16000 * 2))) * 75)⌉ := rfl
  rw [hdef, secondsPerByte_eval]
  have hA : roundNearest (((8960 : ℕ) : ℚ) *
      (4611686018427388 * (2 : ℚ) ^ (-67 : ℤ))) =
      5044031582654956 * (2 : ℚ) ^ (-54 : ℤ) := by
    have h := roundNearest_eq_up
      (((8960 : ℕ) : ℚ) * (4611686018427388 * (2 : ℚ) ^ (-67 : ℤ)))
      (-2) 5044031582654955
      (by norm_num) (by norm_num) (by norm_num) (by norm_num)
    rw [h]
    norm_num
  rw [hA]
  have ht : roundNearest ((5044031582654956 * (2 : ℚ) ^ (-54 : ℤ)) * 75) =
      5910974510923777 * (2 : ℚ) ^ (-48 : ℤ) := by
    have h := roundNearest_eq_up
      ((5044031582654956 * (2 : ℚ) ^ (-54 : ℤ)) * 75)
      4 5910974510923776
      (by norm_num) (by norm_num) (by norm_num) (by norm_num)
    rw [h]
    norm_num
  rw [ht, Int.ceil_eq_iff]
  norm_num

/-- The double trace at 32000 bytes: 32000 · fl(1/32000) rounds back to
exactly 1 (the excess falls below a half ulp at 1), so the spec's
example 32000 → 75 holds in double precision. -/
lemma estimateAudioTokens_32000 : estimateAudioTokens 32000 = 75 := by
  have hdef : estimateAudioTokens 32000 =
      ⌈roundNearest (roundNearest
        (((32000 : ℕ) : ℚ) * roundNearest (1 / (16000 * 2))) * 75)⌉ := rfl
  rw [hdef, secondsPerByte_eval]
  have hA : roundNearest (((32000 : ℕ) : ℚ) *
      (4611686018427388 * (2 : ℚ) ^ (-67 : ℤ))) = 1 := by
    have h := roundNearest_eq_down
      (((32000 : ℕ) : ℚ) * (4611686018427388 * (2 : ℚ) ^ (-67 : ℤ)))
      0 4503599627370496
      (by norm_num) (by norm_num) (by norm_num) (by norm_num)
    rw [h]
    norm_num
  rw [hA]
  have ht : roundNearest ((1 : ℚ) * 75) = 75 := by
    have h := roundNearest_eq_down ((1 : ℚ) * 75) 6 5277655813324800
      (by norm_num) (by norm_num) (by norm_num) (by norm_num)
    rw [h]
    norm_num
  rw [ht, Int.ceil_eq_iff]
  norm_num

/-- On the 1/1280 grid, a non-multiple is at least one grid step below
the next integer multiple. -/
lemma ceil_grid_strict (n : ℕ) (k : ℤ) (h1 : 3 * (n : ℤ) ≤ 1280 * k)
    (hnd : (3 * n) % 1280 ≠ 0) : 3 * (n : ℤ) + 1 ≤ 1280 * k := by
  omega

/-- C10 (amended): the program computes the token estimate in doubles,
where 1/32000 rounds up; for every byte length n ≤ 2^49 the result is
within +1 of the exact ceil(n · secondsPerByte · 75), equals it exactly
whenever 3n is not a multiple of 1280, and estimateAudioTokens 32000
still returns exactly 75. (As stated, the claim fails: the exact
formula gives 21 at n = 8960 while the program returns 22 — see the
counterexample.) -/
theorem estimateAudioTokens_double_bounds (n : ℕ) (hn : n ≤ 2 ^ 49) :
    ⌈(n : ℚ) * (1 / (16000 * 2)) * 75⌉ ≤ estimateAudioTokens n ∧
    estimateAudioTokens n ≤ ⌈(n : ℚ) * (1 / (16000 * 2)) * 75⌉ + 1 ∧
    ((3 * n) % 1280 ≠ 0 →
      estimateAudioTokens n = ⌈(n : ℚ) * (1 / (16000 * 2)) * 75⌉) ∧
    estimateAudioTokens 32000 = 75 := by
  have harg : (n : ℚ) * (1 / (16000 * 2)) * 75 = 3 * (n : ℚ) / 1280 := by
    ring
  rw [harg]
  rcases Nat.eq_zero_or_pos n with rfl | hn1
  · have hdef : estimateAudioTokens 0 =
        ⌈roundNearest (roundNearest
          (((0 : ℕ) : ℚ) * roundNearest (1 / (16000 * 2))) * 75)⌉ := rfl
    have h0 : (((0 : ℕ) : ℚ) * roundNearest (1 / (16000 * 2))) = 0 := by
      norm_num
    rw [hdef, h0, roundNearest_nonpos 0 le_rfl]
    norm_num [roundNearest_nonpos 0 le_rfl, estimateAudioTokens_32000]
  · have hdef : estimateAudioTokens n =
        ⌈roundNearest (roundNearest
          ((n : ℚ) * roundNearest (1 / (16000 * 2))) * 75)⌉ := rfl
    rw [hdef, secondsPerByte_eval,
      show (4611686018427388 : ℚ) * (2 : ℚ) ^ (-67 : ℤ) =
        4611686018427388 / 147573952589676412928 from by norm_num]
    have hx1 : (1 : ℚ) ≤ (n : ℚ) := by
      exact_mod_cast Nat.one_le_iff_ne_zero.mpr (by omega)
    have hxN : (n : ℚ) ≤ 562949953421312 := by
      have h49 : (2 : ℕ) ^ 49 = 562949953421312 := by norm_num
      rw [h49] at hn
      exact_mod_cast hn
    obtain ⟨A, hA_def⟩ : ∃ A : ℚ,
        (n : ℚ) * (4611686018427388 / 147573952589676412928) = A := ⟨_, rfl⟩
    rw [hA_def]
    have hA_pos : 0 < A := by
      rw [← hA_def]
      positivity
    obtain ⟨sec, hsec_def⟩ : ∃ y : ℚ, roundNearest A = y := ⟨_, rfl⟩
    rw [hsec_def]
    have herr1 := roundNearest_err A (le_of_lt hA_pos)
    rw [hsec_def, abs_le,
      show ((2 : ℚ) ^ (53 : ℕ)) = 9007199254740992 from by norm_num] at herr1
    have hsec_pos : 0 < sec := by
      obtain ⟨h1, -⟩ := herr1
      nlinarith
    obtain ⟨t, ht_def⟩ : ∃ y : ℚ, roundNearest (sec * 75) = y := ⟨_, rfl⟩
    rw [ht_def]
    have herr2 := roundNearest_err (sec * 75) (by positivity)
    rw [ht_def, abs_le,
      show ((2 : ℚ) ^ (53 : ℕ)) = 9007199254740992 from by norm_num] at herr2
    obtain ⟨s, hs_def⟩ : ∃ y : ℚ, 3 * (n : ℚ) / 1280 = y := ⟨_, rfl⟩
    rw [hs_def]
    have hs_pos : 0 < s := by
      rw [← hs_def]
      positivity
    have hsN : s ≤ 1319413953331.2 := by
      rw [← hs_def]
      linarith
    have hs_eq : 1280 * s = 3 * (n : ℚ) := by
      rw [← hs_def]
      ring
    have hAs : 75 * A = s * (1 + 3 / 144115188075855872) := by
      rw [← hA_def, ← hs_def]
      ring
    have ht_low : t ≥ s * (1 - 1 / 4503599627370496) := by
      obtain ⟨e1, -⟩ := herr1
      obtain ⟨e2, -⟩ := herr2
      nlinarith
    have ht_hi : t ≤ s * (1 + 1 / 2251799813685248) := by
      obtain ⟨-, e1⟩ := herr1
      obtain ⟨-, e2⟩ := herr2
      nlinarith
    obtain ⟨k, hk_def⟩ : ∃ y : ℤ, ⌈s⌉ = y := ⟨_, rfl⟩
    rw [hk_def]
    have hk_ge : s ≤ (k : ℚ) := hk_def ▸ Int.le_ceil s
    have hk_lt : (k : ℚ) < s + 1 := hk_def ▸ Int.ceil_lt_add_one s
    have hk_int1 : 3 * (n : ℤ) ≤ 1280 * k := by
      have h : 3 * (n : ℚ) ≤ 1280 * (k : ℚ) := by linarith
      exact_mod_cast h
    have hk_int2 : 1280 * k ≤ 3 * (n : ℤ) + 1279 := by
      have h : 1280 * (k : ℚ) < 3 * (n : ℚ) + 1280 := by linarith
      have h2 : 1280 * k < 3 * (n : ℤ) + 1280 := by exact_mod_cast h
      omega
    have hk_castQ : 1280 * (k : ℚ) ≤ 3 * (n : ℚ) + 1279 := by
      exact_mod_cast hk_int2
    have hlow_ceil : k ≤ ⌈t⌉ := by
      have h : (k - 1 : ℤ) < ⌈t⌉ := by
        rw [Int.lt_ceil]
        push_cast
        linarith
      omega
    refine ⟨hlow_ceil, ?_, ?_, estimateAudioTokens_32000⟩
    · rw [Int.ceil_le]
      push_cast
      linarith
    · intro hnd
      have hk3 : 3 * (n : ℤ) + 1 ≤ 1280 * k := ceil_grid_strict n k hk_int1 hnd
      have hk3Q : s + 1 / 1280 ≤ (k : ℚ) := by
        have h : (3 * (n : ℚ)) + 1 ≤ 1280 * (k : ℚ) := by
          exact_mod_cast hk3
        linarith
      have hhi_ceil : ⌈t⌉ ≤ k := by
        rw [Int.ceil_le]
        linarith
      exact le_antisymm hhi_ceil hlow_ceil

/-- Counterexample to C10 as stated: at n = 8960 the program returns 22
(the rounded-up double of 1/32000 pushes the product to 21 + 2^-48)
while the exact formula ceil(n · secondsPerByte · 75) gives 21. -/
theorem estimateAudioTokens_counterexample :
    estimateAudioTokens 8960 = 22 ∧
    ⌈(8960 : ℚ) * (1 / (16000 * 2)) * 75⌉ = 21 ∧
    estimateAudioTokens 8960 ≠ ⌈(8960 : ℚ) * (1 / (16000 * 2)) * 75⌉ := by
  have hexact : ⌈(8960 : ℚ) * (1 / (16000 * 2)) * 75⌉ = 21 := by
    rw [show (8960 : ℚ) * (1 / (16000 * 2)) * 75 = 21 from by norm_num,
      Int.ceil_eq_iff]
    norm_num
  refine ⟨estimateAudioTokens_8960, hexact, ?_⟩
  rw [estimateAudioTokens_8960, hexact]
  decide

/-- Witness for C10 (amended) at the spec's 32000-byte example. -/
theorem estimateAudioTokens_double_bounds_witness :
    estimateAudioTokens 32000 = 75 :=
  (estimateAudioTokens_double_bounds 32000 (by norm_num)).2.2.2

end GeminiLive
